import Mathlib

/-!
Verification of the MCTS/UCT search engine of the tic-tac-toe teaching
visualization.  The definitions below are a shallow embedding of the
TypeScript source (`src/unnamed/part_002`, with the identical `uct` helper
from `src/unnamed/part_000`).  Mutable `Node` objects with parent pointers
are embedded as a purely functional tree `MTree`; the walk "up the parent
links" of the source becomes an update along the access path from the root,
which visits exactly the same set of nodes.  JavaScript doubles are embedded
as real numbers (`ℝ`) for the UCT score and as exact rationals (`ℚ`) for
rewards and random draws, whose values (0, 1/2, 1 and m/2^32) are all exact
in binary floating point.
-/

namespace MCTS

/-- Players, the `"X" | "O"` strings of the source. -/
inductive Player where
  | X
  | O
deriving DecidableEq, Repr

/-- Game outcomes, the `Outcome = "X" | "O" | "D"` type of the source
(`D` = draw). -/
inductive Outcome where
  | X
  | O
  | D
deriving DecidableEq, Repr

/-- The winner outcome corresponding to a player; embeds the implicit
string coincidence `"X" : Outcome = "X" : Player` used by comparisons such
as `outcome === rootPlayer`. -/
def playerOutcome : Player → Outcome
  | .X => .X
  | .O => .O

/-- `node.toMove === "X" ? "O" : "X"`. -/
def otherPlayer : Player → Player
  | .X => .O
  | .O => .X

/-- `Cell = "X" | "O" | null`. -/
abbrev Cell := Option Player

/-- `Board = Cell[]` (length 9 in the application, arbitrary here). -/
abbrev Board := List Cell

/-- The eight winning lines (`LINES` in the source). -/
def LINES : List (ℕ × ℕ × ℕ) :=
  [(0, 1, 2), (3, 4, 5), (6, 7, 8), (0, 3, 6), (1, 4, 7), (2, 5, 8),
   (0, 4, 8), (2, 4, 6)]

/-- One step of the loop in `checkWinner`: does line `l` have three equal
non-empty marks?  (`board[a] && board[a] === board[b] && board[a] === board[c]`). -/
def lineWinner (b : Board) (l : ℕ × ℕ × ℕ) : Option Outcome :=
  match b.getD l.1 none with
  | some p =>
      if b.getD l.2.1 none = some p ∧ b.getD l.2.2 none = some p then
        some (playerOutcome p)
      else none
  | none => none

/-- `checkWinner(board)`: first winning line, else draw when the board is
full (`board.every(Boolean)`), else `null`. -/
def checkWinner (b : Board) : Option Outcome :=
  match LINES.findSome? (lineWinner b) with
  | some o => some o
  | none => if b.all (fun c => c.isSome) then some .D else none

/-- Helper for `legalMoves`: indices of empty cells, counting from `i`. -/
def legalMovesAux : Board → ℕ → List ℕ
  | [], _ => []
  | none :: rest, i => i :: legalMovesAux rest (i + 1)
  | some _ :: rest, i => legalMovesAux rest (i + 1)

/-- `legalMoves(board)`: the ascending list of indices of empty cells. -/
def legalMoves (b : Board) : List ℕ := legalMovesAux b 0

/-- `nextPlayer(board)`: `X` when the mark counts are equal, else `O`. -/
def nextPlayer (b : Board) : Player :=
  if b.count (some Player.X) = b.count (some Player.O) then .X else .O

/-!
## The deterministic random source

`createMulberry32` keeps a 32-bit state `t` and on each call produces a
float in `[0, 1)`.  All JavaScript coercions (`>>> 0`, `Math.imul`,
`ToInt32` on `^`/`|`) operate on the value modulo `2^32`, so the generator
is embedded exactly as arithmetic on `ℕ` with explicit `% 2^32`; the
returned draw `word / 2^32` is an exact rational.
-/

/-- One call of the Mulberry32 generator: `(draw, nextState)`. -/
def mulberryNext (t : ℕ) : ℚ × ℕ :=
  let t1 := (t + 0x6D2B79F5) % 4294967296
  let x1 := ((t1 ^^^ (t1 >>> 15)) * (1 ||| t1)) % 4294967296
  let x2 := (x1 ^^^ ((x1 + ((x1 ^^^ (x1 >>> 7)) * (61 ||| x1)) % 4294967296) % 4294967296)) % 4294967296
  let out := (x2 ^^^ (x2 >>> 14)) % 4294967296
  ((out : ℚ) / 4294967296, t1)

/-- `createMulberry32(seed)`: the initial state is `(seed >>> 0)`. -/
def mulberryInit (seed : ℕ) : ℕ := seed % 4294967296

/-- `randChoice(arr, rand) = arr[Math.floor(rand() * arr.length)]`; the
index is in range whenever the draw lies in `[0, 1)` and the list is
non-empty, which `mulberryNext` guarantees. -/
def randChoice (arr : List ℕ) (q : ℚ) : ℕ :=
  arr.getD (Int.toNat ⌊q * arr.length⌋) 0

/-!
## The search tree

The source `Node` record, minus the `parent` back-reference: children are
held in insertion order as an association list (the iteration order of a
JavaScript `Map`), and a node is addressed by its path of moves from the
root, which plays the role of the chain of parent links.
-/

/-- The `Node` type of the source. -/
inductive MTree where
  | mk
      (board : Board)
      (toMove : Player)
      (moveFromParent : Option ℕ)
      (children : List (ℕ × MTree))
      (untried : List ℕ)
      (N : ℕ)
      (W : ℚ)
      (wins : ℕ)
      (draws : ℕ)
      (losses : ℕ)
      (terminal : Option Outcome)

namespace MTree

def board : MTree → Board
  | mk b _ _ _ _ _ _ _ _ _ _ => b

def toMove : MTree → Player
  | mk _ tm _ _ _ _ _ _ _ _ _ => tm

def moveFromParent : MTree → Option ℕ
  | mk _ _ mfp _ _ _ _ _ _ _ _ => mfp

def children : MTree → List (ℕ × MTree)
  | mk _ _ _ ch _ _ _ _ _ _ _ => ch

def untried : MTree → List ℕ
  | mk _ _ _ _ un _ _ _ _ _ _ => un

def N : MTree → ℕ
  | mk _ _ _ _ _ n _ _ _ _ _ => n

def W : MTree → ℚ
  | mk _ _ _ _ _ _ w _ _ _ _ => w

def wins : MTree → ℕ
  | mk _ _ _ _ _ _ _ wi _ _ _ => wi

def draws : MTree → ℕ
  | mk _ _ _ _ _ _ _ _ dr _ _ => dr

def losses : MTree → ℕ
  | mk _ _ _ _ _ _ _ _ _ lo _ => lo

def terminal : MTree → Option Outcome
  | mk _ _ _ _ _ _ _ _ _ _ te => te

end MTree

/-- `makeNode(board, toMove, parent?, moveFromParent)`: fresh statistics,
`untried` initialized from `legalMoves`, terminal status computed at
creation.  The parent pointer is represented by the node's path. -/
def makeNode (b : Board) (tm : Player) (mfp : Option ℕ) : MTree :=
  .mk b tm mfp [] (legalMoves b) 0 0 0 0 0 (checkWinner b)

/-- First child bound to move `m` (a JavaScript `Map` lookup). -/
def findChild (m : ℕ) : List (ℕ × MTree) → Option MTree
  | [] => none
  | (k, c) :: rest => if k = m then some c else findChild m rest

/-- `children.set(m, child)`: replace in place when the key is present,
append otherwise. -/
def mapSet : List (ℕ × MTree) → ℕ → MTree → List (ℕ × MTree)
  | [], k, v => [(k, v)]
  | (k', v') :: rest, k, v =>
      if k' = k then (k, v) :: rest else (k', v') :: mapSet rest k v

/-- Rewrite the child bound to move `m` with `f` (used to push an update
one step down an access path). -/
def mapChildAt (m : ℕ) (f : MTree → MTree) : MTree → MTree
  | .mk b tm mfp ch un n w wi dr lo te =>
      .mk b tm mfp (ch.map fun kc => if kc.1 = m then (kc.1, f kc.2) else kc)
        un n w wi dr lo te

/-- The node reached from `t` by following the path of moves `p`
(`none` when the path leaves the tree). -/
def nodeAt? : List ℕ → MTree → Option MTree
  | [], t => some t
  | m :: p, t =>
      match findChild m t.children with
      | some c => nodeAt? p c
      | none => none

/-- Total variant of `nodeAt?`; on the paths produced by selection and
expansion the fallback branch is never taken. -/
def nodeAtD : List ℕ → MTree → MTree
  | [], t => t
  | m :: p, t =>
      match findChild m t.children with
      | some c => nodeAtD p c
      | none => t

/-- Replace the node at path `p` by `nd` (the functional image of the
in-place mutation the source performs through an object reference). -/
def replaceAt : List ℕ → MTree → MTree → MTree
  | [], nd, _ => nd
  | m :: p, nd, t => mapChildAt m (replaceAt p nd) t

/-!
## UCT scoring
-/

/-- `uctValue(parentN, child, C)` from `part_002`:
`q + C * Math.sqrt(Math.log(parentN + 1) / (child.N + 1))` with
`q = child.N > 0 ? child.W / child.N : 0`. -/
noncomputable def uctValue (parentN childN : ℕ) (childW : ℚ) (Cc : ℝ) : ℝ :=
  (if 0 < childN then (childW : ℝ) / (childN : ℝ) else 0)
    + Cc * Real.sqrt (Real.log ((parentN : ℝ) + 1) / ((childN : ℝ) + 1))

/-- `uct(parentN, child, C)` from `part_000`, textually identical to
`uctValue`. -/
noncomputable def uct (parentN childN : ℕ) (childW : ℚ) (Cc : ℝ) : ℝ :=
  (if 0 < childN then (childW : ℝ) / (childN : ℝ) else 0)
    + Cc * Real.sqrt (Real.log ((parentN : ℝ) + 1) / ((childN : ℝ) + 1))

/-!
## Selection

The inner `for (const child of node.children.values())` loop of `select`
(and its verbatim copy inside `oneIterationViz`), with accumulator
`best`/`bestVal`; `bestVal` starts at `-Infinity`, which every real value
exceeds, so the accumulator is represented by an `Option` that the first
child always fills.  The random tie-break draw is consumed exactly when
`val > bestVal` fails and `|val - bestVal| < 1e-12` holds, mirroring the
short-circuit evaluation of
`val > bestVal || (Math.abs(val - bestVal) < 1e-12 && rand() < 0.5)`. -/
noncomputable def pickLoop (parentN : ℕ) (Cc : ℝ) :
    List (ℕ × MTree) → Option (ℕ × MTree × ℝ) → ℕ → Option (ℕ × MTree) × ℕ
  | [], none, s => (none, s)
  | [], some (bm, bch, _), s => (some (bm, bch), s)
  | (m, ch) :: rest, none, s =>
      pickLoop parentN Cc rest (some (m, ch, uctValue parentN ch.N ch.W Cc)) s
  | (m, ch) :: rest, some (bm, bch, bestVal), s =>
      let val := uctValue parentN ch.N ch.W Cc
      if bestVal < val then pickLoop parentN Cc rest (some (m, ch, val)) s
      else if |val - bestVal| < 1e-12 then
        if (mulberryNext s).1 < 1 / 2 then
          pickLoop parentN Cc rest (some (m, ch, val)) (mulberryNext s).2
        else pickLoop parentN Cc rest (some (bm, bch, bestVal)) (mulberryNext s).2
      else pickLoop parentN Cc rest (some (bm, bch, bestVal)) s

/-- The complete best-child scan of one selection step. -/
noncomputable def pickBestChild (parentN : ℕ) (Cc : ℝ)
    (children : List (ℕ × MTree)) (s : ℕ) : Option (ℕ × MTree) × ℕ :=
  pickLoop parentN Cc children none s

/-- The child returned by the scan is one of the scanned children (or was
already in the accumulator). -/
theorem pickLoop_mem (parentN : ℕ) (Cc : ℝ) :
    ∀ (l : List (ℕ × MTree)) (acc : Option (ℕ × MTree × ℝ)) (s s' : ℕ)
      (m : ℕ) (ch : MTree),
      pickLoop parentN Cc l acc s = (some (m, ch), s') →
      (m, ch) ∈ l ∨ ∃ v, acc = some (m, ch, v) := by
  intro l
  induction l with
  | nil =>
      intro acc s s' m ch h
      cases acc with
      | none => simp [pickLoop] at h
      | some b =>
          obtain ⟨bm, bch, bv⟩ := b
          simp only [pickLoop, Prod.mk.injEq, Option.some.injEq] at h
          obtain ⟨⟨h1, h2⟩, -⟩ := h
          exact .inr ⟨bv, by rw [h1, h2]⟩
  | cons hd tl ih =>
      intro acc s s' m ch h
      obtain ⟨m1, ch1⟩ := hd
      cases acc with
      | none =>
          simp only [pickLoop] at h
          rcases ih _ _ _ _ _ h with hmem | ⟨v, hv⟩
          · exact .inl (List.mem_cons_of_mem _ hmem)
          · simp only [Option.some.injEq, Prod.mk.injEq] at hv
            exact .inl (by simp [hv.1, hv.2.1])
      | some b =>
          obtain ⟨bm, bch, bv⟩ := b
          simp only [pickLoop] at h
          split at h
          · rcases ih _ _ _ _ _ h with hmem | ⟨v, hv⟩
            · exact .inl (List.mem_cons_of_mem _ hmem)
            · simp only [Option.some.injEq, Prod.mk.injEq] at hv
              exact .inl (by simp [hv.1, hv.2.1])
          · split at h
            · split at h
              · rcases ih _ _ _ _ _ h with hmem | ⟨v, hv⟩
                · exact .inl (List.mem_cons_of_mem _ hmem)
                · simp only [Option.some.injEq, Prod.mk.injEq] at hv
                  exact .inl (by simp [hv.1, hv.2.1])
              · rcases ih _ _ _ _ _ h with hmem | ⟨v, hv⟩
                · exact .inl (List.mem_cons_of_mem _ hmem)
                · simp only [Option.some.injEq, Prod.mk.injEq] at hv
                  exact .inr ⟨bv, by rw [hv.1, hv.2.1]⟩
            · rcases ih _ _ _ _ _ h with hmem | ⟨v, hv⟩
              · exact .inl (List.mem_cons_of_mem _ hmem)
              · simp only [Option.some.injEq, Prod.mk.injEq] at hv
                exact .inr ⟨bv, by rw [hv.1, hv.2.1]⟩

/-- Same fact for `pickBestChild`. -/
theorem pickBestChild_mem {parentN : ℕ} {Cc : ℝ} {l : List (ℕ × MTree)}
    {s s' : ℕ} {m : ℕ} {ch : MTree}
    (h : pickBestChild parentN Cc l s = (some (m, ch), s')) : (m, ch) ∈ l := by
  rcases pickLoop_mem parentN Cc l none s s' m ch h with hmem | ⟨v, hv⟩
  · exact hmem
  · cases hv

/-- A child is structurally smaller than its parent node. -/
theorem sizeOf_child_lt {m : ℕ} {c : MTree} {t : MTree}
    (h : (m, c) ∈ t.children) : sizeOf c < sizeOf t := by
  cases t with
  | mk b tm mfp ch un n w wi dr lo te =>
      simp only [MTree.children] at h
      have h1 := List.sizeOf_lt_of_mem h
      have h2 : sizeOf c < sizeOf (m, c) := by
        simp only [Prod.mk.sizeOf_spec]
        omega
      simp only [MTree.mk.sizeOf_spec]
      omega

/-- `select(node, C, rand)`: walk down while the node is non-terminal,
fully expanded and has children, repeatedly taking the best-scored child.
Returns the path of moves from the root to the selected node (the chain of
parent links of the source, innermost node last) together with the random
state.  The `(none, _)` match arm is unreachable: with a non-empty child
list the scan always returns a child (the source asserts this with
`best!`). -/
noncomputable def select (t : MTree) (Cc : ℝ) (s : ℕ) : List ℕ × ℕ :=
  if t.terminal = none ∧ t.untried.length = 0 ∧ 0 < t.children.length then
    match hp : pickBestChild t.N Cc t.children s with
    | (some (m, child), s') =>
        let r := select child Cc s'
        (m :: r.1, r.2)
    | (none, s') => ([], s')
  else ([], s)
termination_by sizeOf t
decreasing_by
  exact sizeOf_child_lt (pickBestChild_mem hp)

/-- The selection loop of `oneIterationViz` (lines 351-364): the same scan
as `select`, but re-checking the cancellation token at the top of every
loop entry (`waitIfPaused`); `none` signals a cancelled run, returned
before any tree mutation. -/
noncomputable def selectVizLoop (t : MTree) (Cc : ℝ) (cancelled : Bool) (s : ℕ) :
    Option (List ℕ × ℕ) :=
  if t.terminal = none ∧ t.untried.length = 0 ∧ 0 < t.children.length then
    if cancelled then none
    else
      match hp : pickBestChild t.N Cc t.children s with
      | (some (m, child), s') =>
          (selectVizLoop child Cc cancelled s').map fun r => (m :: r.1, r.2)
      | (none, s') => some ([], s')
  else some ([], s)
termination_by sizeOf t
decreasing_by
  exact sizeOf_child_lt (pickBestChild_mem hp)

/-!
## Expansion
-/

/-- `expand(node, rand)`: no-op on terminal or fully-expanded nodes, else
draw one untried move uniformly, remove it from `untried`, place the
current side's mark, and append the fresh child to `children`.  Returns
the rewritten parent, the expanded move (`none` for the no-op case) and
the random state. -/
def expandNode (nd : MTree) (s : ℕ) : MTree × Option ℕ × ℕ :=
  match nd with
  | .mk b tm mfp ch un n w wi dr lo te =>
      if te ≠ none ∨ un.length = 0 then (.mk b tm mfp ch un n w wi dr lo te, none, s)
      else
        let q := (mulberryNext s).1
        let s1 := (mulberryNext s).2
        let m := randChoice un q
        let un' := un.filter (fun x => x != m)
        let b2 := b.set m (some tm)
        let child := makeNode b2 (otherPlayer tm) (some m)
        (.mk b tm mfp (mapSet ch m child) un' n w wi dr lo te, some m, s1)

/-!
## Simulation (rollout)

Support lemmas showing that each loop pass of `rolloutWithTrace` fills one
empty cell, so the loop (embedded as well-founded recursion on the number
of legal moves) always terminates.
-/

/-- Every draw of the generator is non-negative. -/
theorem mulberryNext_fst_nonneg (t : ℕ) : 0 ≤ (mulberryNext t).1 := by
  unfold mulberryNext
  positivity

/-- Every draw of the generator is below `1`. -/
theorem mulberryNext_fst_lt_one (t : ℕ) : (mulberryNext t).1 < 1 := by
  unfold mulberryNext
  dsimp only
  rw [div_lt_one (by norm_num)]
  exact_mod_cast Nat.mod_lt _ (by norm_num)

/-- With a draw in `[0, 1)` and a non-empty list, `randChoice` returns an
element of the list. -/
theorem randChoice_mem {arr : List ℕ} (h : arr ≠ []) {q : ℚ} (h0 : 0 ≤ q)
    (h1 : q < 1) : randChoice arr q ∈ arr := by
  unfold randChoice
  have hlen : 0 < arr.length := List.length_pos.2 h
  have hfl : ⌊q * (arr.length : ℚ)⌋ < (arr.length : ℤ) := by
    rw [Int.floor_lt]
    push_cast
    calc q * (arr.length : ℚ) < 1 * (arr.length : ℚ) := by
          exact mul_lt_mul_of_pos_right h1 (by exact_mod_cast hlen)
      _ = (arr.length : ℚ) := one_mul _
  have hnn : (0 : ℤ) ≤ ⌊q * (arr.length : ℚ)⌋ :=
    Int.floor_nonneg.2 (by positivity)
  have hi : Int.toNat ⌊q * (arr.length : ℚ)⌋ < arr.length := by omega
  rw [List.getD_eq_getElem _ _ hi]
  exact List.getElem_mem hi

/-- `legalMovesAux` lists one index per empty cell. -/
theorem legalMovesAux_length (b : Board) :
    ∀ i, (legalMovesAux b i).length = b.countP (fun c => c.isNone) := by
  induction b with
  | nil => intro i; simp [legalMovesAux]
  | cons c rest ih =>
      intro i
      cases c with
      | none => simp [legalMovesAux, List.countP_cons, ih]
      | some p => simp [legalMovesAux, List.countP_cons, ih]

/-- A member of `legalMovesAux b i` addresses an empty cell of `b`
(shifted by the starting index `i`). -/
theorem mem_legalMovesAux {b : Board} :
    ∀ {i m : ℕ}, m ∈ legalMovesAux b i →
      ∃ j, m = i + j ∧ j < b.length ∧ b.getD j none = none := by
  induction b with
  | nil => intro i m h; simp [legalMovesAux] at h
  | cons c rest ih =>
      intro i m h
      cases c with
      | none =>
          rcases List.mem_cons.1 h with rfl | h'
          · exact ⟨0, by omega, by simp, rfl⟩
          · obtain ⟨j, hj1, hj2, hj3⟩ := ih h'
            exact ⟨j + 1, by omega, by simpa using hj2, by simpa using hj3⟩
      | some p =>
          obtain ⟨j, hj1, hj2, hj3⟩ := ih h
          exact ⟨j + 1, by omega, by simpa using hj2, by simpa using hj3⟩

/-- Marking an empty cell strictly decreases the number of empty cells. -/
theorem countP_isNone_set_lt {b : Board} :
    ∀ {m : ℕ}, m < b.length → b.getD m none = none → ∀ p : Player,
      (b.set m (some p)).countP (fun c => c.isNone) <
        b.countP (fun c => c.isNone) := by
  induction b with
  | nil => intro m hm; simp at hm
  | cons c rest ih =>
      intro m hm hnone p
      cases m with
      | zero =>
          simp only [List.getD_cons_zero] at hnone
          subst hnone
          simp [List.countP_cons]
      | succ m' =>
          simp only [List.getD_cons_succ] at hnone
          have := ih (by simpa using hm) hnone p
          simp only [List.set_cons_succ, List.countP_cons]
          omega

/-- Playing a legal move strictly shrinks the legal-move set. -/
theorem legalMoves_set_lt {b : Board} {m : ℕ} (hm : m ∈ legalMoves b)
    (p : Player) :
    (legalMoves (b.set m (some p))).length < (legalMoves b).length := by
  obtain ⟨j, hj1, hj2, hj3⟩ := mem_legalMovesAux hm
  have hmj : m = j := by omega
  subst hmj
  rw [legalMoves, legalMoves, legalMovesAux_length, legalMovesAux_length]
  exact countP_isNone_set_lt hj2 hj3 p

/-- `rolloutWithTrace(board, playerToMove, rand)`: play uniformly random
legal moves for alternating sides until a terminal outcome; returns the
outcome, the move trace (in play order), the final board and the random
state.  Termination is structural: each pass fills one empty cell.  The
`legalMoves b = []` arm mirrors the defensive `moves.length === 0` return
of the source (unreachable, since a full board is already a draw). -/
def rolloutWithTrace (b : Board) (p : Player) (s : ℕ) :
    Outcome × List (ℕ × Player) × Board × ℕ :=
  match checkWinner b with
  | some w => (w, [], b, s)
  | none =>
      if hm : legalMoves b = [] then (.D, [], b, s)
      else
        let q := (mulberryNext s).1
        let s1 := (mulberryNext s).2
        let m := randChoice (legalMoves b) q
        let r := rolloutWithTrace (b.set m (some p)) (otherPlayer p) s1
        (r.1, (m, p) :: r.2.1, r.2.2.1, r.2.2.2)
termination_by (legalMoves b).length
decreasing_by
  exact legalMoves_set_lt
    (randChoice_mem hm (mulberryNext_fst_nonneg s) (mulberryNext_fst_lt_one s)) p

/-!
## Backpropagation
-/

/-- `rewardFrom(outcome, rootPlayer)`: `0.5` for a draw, `1` for a
root-player win, `0` otherwise. -/
def rewardFrom (o : Outcome) (rp : Player) : ℚ :=
  if o = .D then 1 / 2 else if o = playerOutcome rp then 1 else 0

/-- The statistics update `backprop` applies at one visited node:
`N += 1`, `W += r`, and exactly one of `draws`/`wins`/`losses` bumped. -/
def bumpStats (o : Outcome) (rp : Player) : MTree → MTree
  | .mk b tm mfp ch un n w wi dr lo te =>
      if o = .D then .mk b tm mfp ch un (n + 1) (w + rewardFrom o rp) wi (dr + 1) lo te
      else if o = playerOutcome rp then
        .mk b tm mfp ch un (n + 1) (w + rewardFrom o rp) (wi + 1) dr lo te
      else .mk b tm mfp ch un (n + 1) (w + rewardFrom o rp) wi dr (lo + 1) te

/-- `backprop(node, outcome, rootPlayer)`: the source walks from the
simulated node up the `parent` links to the root, updating every node on
the way; here the same set of nodes — every node on the access path `p`,
root and endpoint inclusive — is updated top-down. -/
def backpropPath (o : Outcome) (rp : Player) : List ℕ → MTree → MTree
  | [], t => bumpStats o rp t
  | m :: p, t => bumpStats o rp (mapChildAt m (backpropPath o rp p) t)

/-!
## One iteration (fast and visible) and run drivers
-/

/-- `oneIterationFast(workRoot)` (lines 409-415): select, conditionally
expand, simulate, backpropagate.  `bd` is the externally displayed board,
whose side to move is the reward perspective (`nextPlayer(board)`). -/
noncomputable def oneIterationFast (t : MTree) (Cc : ℝ) (bd : Board) (s : ℕ) :
    MTree × ℕ :=
  let sel := select t Cc s
  let nd := nodeAtD sel.1 t
  let step :=
    if nd.terminal = none ∧ 0 < nd.untried.length then
      let e := expandNode nd sel.2
      (replaceAt sel.1 e.1 t, sel.1 ++ e.2.1.toList, e.2.2)
    else (t, sel.1, sel.2)
  let ro := rolloutWithTrace (nodeAtD step.2.1 step.1).board
    (nodeAtD step.2.1 step.1).toMove step.2.2
  (backpropPath ro.1 (nextPlayer bd) step.2.1 step.1, ro.2.2.2)

/-- `oneIterationViz(workRoot)` (lines 342-406), stripped of its purely
visual effects (phase markers, overlays, sleeps).  The pause/cancel token
is embedded as the constant flag `cancelled`, checked at every suspension
point of the source; `false` in the middle component reports a cancelled
iteration (`ok: false`), which aborts before any tree mutation.  The
expansion body inlined in the source (lines 370-377) is textually the body
of `expand`, so it is embedded by the same `expandNode`. -/
noncomputable def oneIterationViz (t : MTree) (Cc : ℝ) (bd : Board)
    (cancelled : Bool) (s : ℕ) : MTree × Bool × ℕ :=
  match selectVizLoop t Cc cancelled s with
  | none => (t, false, s)
  | some sel =>
      if cancelled then (t, false, sel.2)
      else
        let nd := nodeAtD sel.1 t
        let step :=
          if nd.terminal = none ∧ 0 < nd.untried.length then
            let e := expandNode nd sel.2
            (replaceAt sel.1 e.1 t, sel.1 ++ e.2.1.toList, e.2.2)
          else (t, sel.1, sel.2)
        if cancelled then (step.1, false, step.2.2)
        else
          let ro := rolloutWithTrace (nodeAtD step.2.1 step.1).board
            (nodeAtD step.2.1 step.1).toMove step.2.2
          if cancelled ∧ ro.2.1 ≠ [] then (step.1, false, ro.2.2.2)
          else if cancelled then (step.1, false, ro.2.2.2)
          else
            let t3 := backpropPath ro.1 (nextPlayer bd) step.2.1 step.1
            if cancelled then (t3, false, ro.2.2.2) else (t3, true, ro.2.2.2)

/-- `n` consecutive fast iterations (the loop of `runBatch`). -/
noncomputable def runFast : ℕ → MTree → ℝ → Board → ℕ → MTree × ℕ
  | 0, t, _, _, s => (t, s)
  | n + 1, t, Cc, bd, s =>
      let r := oneIterationFast t Cc bd s
      runFast n r.1 Cc bd r.2

/-- A run over an arbitrary visible/fast schedule, uncancelled: the loop of
`stepManyAnimated` (and, as special cases, `stepOne` and `runBatch`). -/
noncomputable def runSchedule : List Bool → MTree → ℝ → Board → ℕ → MTree × ℕ
  | [], t, _, _, s => (t, s)
  | v :: rest, t, Cc, bd, s =>
      if v then
        let r := oneIterationViz t Cc bd false s
        runSchedule rest r.1 Cc bd r.2.2
      else
        let r := oneIterationFast t Cc bd s
        runSchedule rest r.1 Cc bd r.2

/-!
## Decision extraction and the board click handler
-/

/-- The scan of `bestChildMove` (lines 534-545): running best move and
best count, `bestN` starting at `-1`, strict improvement only. -/
def bestLoop : List (ℕ × MTree) → Option ℕ → ℤ → Option ℕ
  | [], best, _ => best
  | (m, ch) :: rest, best, bestN =>
      if bestN < (ch.N : ℤ) then bestLoop rest (some m) (ch.N : ℤ)
      else bestLoop rest best bestN

/-- `bestChildMove`: the root child with the highest visit count, `none`
for a childless root. -/
def bestChildMove (t : MTree) : Option ℕ :=
  if t.children.length = 0 then none else bestLoop t.children none (-1)

/-- `placeMark(i)` (lines 317-323): the board click handler.  On a
terminal position or an occupied cell it returns without any effect
(`if (terminal || board[i]) return`); otherwise it places the current
player's mark and rebuilds the search tree at the new position
(`resetTreeToBoard`). -/
def placeMark (board : Board) (root : MTree) (i : ℕ) : Board × MTree :=
  if (checkWinner board).isSome || (board.getD i none).isSome then (board, root)
  else
    let b2 := board.set i (some (nextPlayer board))
    (b2, makeNode b2 (nextPlayer b2) none)

/-- The frame specification of one successful expansion step, stated over
the embedded `expandNode`: the drawn move `m` comes from `untried`, the
parent keeps its board, side and statistics while losing `m` from
`untried` and gaining the child under key `m`, and the child's board is
the parent's with exactly cell `m` rewritten to the parent's side to
move. -/
def ExpandSpec (nd : MTree) (s : ℕ) : Prop :=
  ∃ (m : ℕ) (child : MTree),
    (expandNode nd s).2.1 = some m ∧
    (expandNode nd s).2.2 = (mulberryNext s).2 ∧
    m ∈ nd.untried ∧
    (expandNode nd s).1.board = nd.board ∧
    (expandNode nd s).1.toMove = nd.toMove ∧
    (expandNode nd s).1.N = nd.N ∧
    (expandNode nd s).1.W = nd.W ∧
    (expandNode nd s).1.wins = nd.wins ∧
    (expandNode nd s).1.draws = nd.draws ∧
    (expandNode nd s).1.losses = nd.losses ∧
    (expandNode nd s).1.untried = nd.untried.filter (fun x => x != m) ∧
    (expandNode nd s).1.children = mapSet nd.children m child ∧
    findChild m (expandNode nd s).1.children = some child ∧
    child.toMove = otherPlayer nd.toMove ∧
    child.moveFromParent = some m ∧
    child.N = 0 ∧ child.W = 0 ∧
    child.board.length = nd.board.length ∧
    child.board.getD m none = some nd.toMove ∧
    (∀ i, i ≠ m → child.board.getD i none = nd.board.getD i none)

/-!
## Invariant scaffolding
-/

/-- The per-node statistics invariant of the specification. -/
def StatsOK (nd : MTree) : Prop :=
  nd.wins + nd.draws + nd.losses = nd.N ∧ 0 ≤ nd.W ∧ nd.W ≤ (nd.N : ℚ)

/-- `Occurs u t`: `u` is a node of the tree `t` (reflexive-transitive
closure of the child edge). -/
inductive Occurs : MTree → MTree → Prop where
  | refl (t : MTree) : Occurs t t
  | child {u c t : MTree} {m : ℕ} (hc : (m, c) ∈ t.children) (h : Occurs u c) :
      Occurs u t

/-- Every node of the tree satisfies the statistics invariant. -/
def AllOK (t : MTree) : Prop := ∀ u, Occurs u t → StatsOK u

/-- `Reaches Cc bd x y`: tree-and-random-state `y` is obtained from `x` by
finitely many iterations, each either fast or visible (the latter with an
arbitrary constant cancellation flag). -/
inductive Reaches (Cc : ℝ) (bd : Board) : MTree × ℕ → MTree × ℕ → Prop where
  | refl (x : MTree × ℕ) : Reaches Cc bd x x
  | fast {x : MTree × ℕ} {t : MTree} {s : ℕ} (h : Reaches Cc bd x (t, s)) :
      Reaches Cc bd x (oneIterationFast t Cc bd s)
  | viz {x : MTree × ℕ} {t : MTree} {s : ℕ} (cancelled : Bool)
      (h : Reaches Cc bd x (t, s)) :
      Reaches Cc bd x ((oneIterationViz t Cc bd cancelled s).1,
        (oneIterationViz t Cc bd cancelled s).2.2)

/-!
## Claim theorems
-/

/-- C1: the UCT score computed by the program (`uctValue` in `part_002`,
and the identical `uct` in `part_000`) equals
`Q + C * sqrt(ln(Np + 1) / (Nc + 1))` with `Q = W / Nc` when `Nc > 0` and
`Q = 0` when `Nc = 0`. -/
theorem uctValue_formula (Np Nc : ℕ) (W : ℚ) (Cc : ℝ) :
    (Nc = 0 →
      uctValue Np Nc W Cc =
        Cc * Real.sqrt (Real.log ((Np : ℝ) + 1) / ((Nc : ℝ) + 1))) ∧
    (0 < Nc →
      uctValue Np Nc W Cc =
        (W : ℝ) / (Nc : ℝ) +
          Cc * Real.sqrt (Real.log ((Np : ℝ) + 1) / ((Nc : ℝ) + 1))) ∧
    uct Np Nc W Cc = uctValue Np Nc W Cc := by
  refine ⟨?_, ?_, rfl⟩
  · intro h
    subst h
    simp [uctValue]
  · intro h
    rw [uctValue, if_pos h]

/-- Witness for C1 at concrete inputs (both branches of `Q`). -/
theorem uctValue_formula_witness :
    uctValue 5 0 3 2 =
      2 * Real.sqrt (Real.log (((5 : ℕ) : ℝ) + 1) / (((0 : ℕ) : ℝ) + 1)) ∧
    uctValue 5 4 3 2 =
      ((3 : ℚ) : ℝ) / ((4 : ℕ) : ℝ) +
        2 * Real.sqrt (Real.log (((5 : ℕ) : ℝ) + 1) / (((4 : ℕ) : ℝ) + 1)) :=
  ⟨(uctValue_formula 5 0 3 2).1 rfl,
   (uctValue_formula 5 4 3 2).2.1 (by norm_num)⟩

/-- C6 counterexample: with parent visit count `N = 0` the exploration
bonus is `C * sqrt(ln(0 + 1) / (Nc + 1)) = 0` for every `C`, so
`uctScore(0, 0, 0, C) = 0` never exceeds `uctScore(0, 1, 1, C) = 1` — no
threshold for `C` exists, refuting the claim at `N = 0`, `k = 1`. -/
theorem uct_explore_counterexample :
    ¬ ∃ thr : ℝ, ∀ Cc : ℝ, thr < Cc → uctValue 0 1 1 Cc < uctValue 0 0 0 Cc := by
  rintro ⟨thr, h⟩
  have h1 := h (thr + 1) (by linarith)
  have e0 : uctValue 0 0 0 (thr + 1) = 0 := by
    norm_num [uctValue, Real.log_one]
  have e1 : uctValue 0 1 1 (thr + 1) = 1 := by
    norm_num [uctValue, Real.log_one]
  rw [e0, e1] at h1
  linarith

/-- C6 (amended): for every `k ≥ 1` and every parent visit count `N ≥ 1`
(the claim's `N ≥ 0` fails at `N = 0`, where `ln(N + 1) = 0` kills the
exploration bonus) there is a threshold above which every exploration
constant prefers the unvisited child:
`uctScore(N, 0, 0, C) > uctScore(N, k, k, C)`. -/
theorem uct_exploration_dominates (k Np : ℕ) (hk : 1 ≤ k) (hNp : 1 ≤ Np) :
    ∃ thr : ℝ, ∀ Cc : ℝ, thr < Cc → uctValue Np k k Cc < uctValue Np 0 0 Cc := by
  have hLpos : 0 < Real.log ((Np : ℝ) + 1) := by
    apply Real.log_pos
    have : (1 : ℝ) ≤ (Np : ℝ) := by exact_mod_cast hNp
    linarith
  set L : ℝ := Real.log ((Np : ℝ) + 1) with hL
  set b : ℝ := Real.sqrt (L / ((k : ℝ) + 1)) with hb
  have hk1 : (1 : ℝ) < (k : ℝ) + 1 := by
    have : (1 : ℝ) ≤ (k : ℝ) := by exact_mod_cast hk
    linarith
  have hba : b < Real.sqrt L := by
    rw [hb]
    apply Real.sqrt_lt_sqrt (by positivity)
    calc L / ((k : ℝ) + 1) < L / 1 := by
          exact div_lt_div_of_pos_left hLpos one_pos hk1
      _ = L := div_one L
  have hab : 0 < Real.sqrt L - b := by linarith
  refine ⟨1 / (Real.sqrt L - b), ?_⟩
  intro Cc hC
  have e0 : uctValue Np 0 0 Cc = Cc * Real.sqrt L := by
    rw [uctValue]
    norm_num [hL]
  have e1 : uctValue Np k k Cc = 1 + Cc * b := by
    rw [uctValue, if_pos (by omega), hb, hL]
    have hk0 : ((k : ℕ) : ℝ) ≠ 0 := by
      have : (1 : ℝ) ≤ (k : ℝ) := by exact_mod_cast hk
      linarith
    rw [Rat.cast_natCast, div_self hk0]
  rw [e0, e1]
  have key : 1 < Cc * (Real.sqrt L - b) := by
    have := (div_lt_iff hab).1 hC
    linarith
  have expand : Cc * (Real.sqrt L - b) = Cc * Real.sqrt L - Cc * b := by ring
  linarith

/-- Witness for the amended C6 at `k = 1`, `N = 1`. -/
theorem uct_exploration_dominates_witness :
    ∃ thr : ℝ, ∀ Cc : ℝ, thr < Cc → uctValue 1 1 1 Cc < uctValue 1 0 0 Cc :=
  uct_exploration_dominates 1 1 (le_refl 1) (le_refl 1)

/-- Rollout length bound, by induction on an upper bound for the number of
legal moves. -/
theorem rollout_trace_le :
    ∀ (n : ℕ) (b : Board) (p : Player) (s : ℕ), (legalMoves b).length ≤ n →
      (rolloutWithTrace b p s).2.1.length ≤ (legalMoves b).length := by
  intro n
  induction n with
  | zero =>
      intro b p s hb
      rw [rolloutWithTrace]
      cases hw : checkWinner b with
      | some w => simp
      | none =>
          have hm : legalMoves b = [] := List.eq_nil_of_length_eq_zero (by omega)
          rw [dif_pos hm]
          simp
  | succ n ih =>
      intro b p s hb
      rw [rolloutWithTrace]
      cases hw : checkWinner b with
      | some w => simp
      | none =>
          by_cases hm : legalMoves b = []
          · rw [dif_pos hm]
            simp
          · rw [dif_neg hm]
            have hmem := randChoice_mem hm (mulberryNext_fst_nonneg s)
              (mulberryNext_fst_lt_one s)
            have hlt := legalMoves_set_lt hmem p
            have hrec := ih (b.set (randChoice (legalMoves b) (mulberryNext s).1)
              (some p)) (otherPlayer p) (mulberryNext s).2 (by omega)
            dsimp only
            simp only [List.length_cons]
            omega

/-- C9: the rollout always terminates (it is a total function of this
development) and plays at most as many random moves as there are empty
cells in the starting board; on an already-terminal starting position it
plays zero moves and returns the board's terminal outcome. -/
theorem rollout_bounded (b : Board) (p : Player) (s : ℕ) :
    (rolloutWithTrace b p s).2.1.length ≤ (legalMoves b).length ∧
    (∀ o, checkWinner b = some o → rolloutWithTrace b p s = (o, [], b, s)) := by
  constructor
  · exact rollout_trace_le (legalMoves b).length b p s le_rfl
  · intro o hw
    rw [rolloutWithTrace, hw]

/-- Access at the written index after `List.set`. -/
theorem getD_set_self {b : Board} {m : ℕ} (h : m < b.length) (v : Cell) :
    (b.set m v).getD m none = v := by
  rw [List.getD_eq_getElem?_getD, List.getElem?_set_self',
    List.getElem?_eq_getElem h]
  rfl

/-- Access away from the written index after `List.set`. -/
theorem getD_set_ne {b : Board} {m i : ℕ} (h : i ≠ m) (v : Cell) :
    (b.set m v).getD i none = b.getD i none := by
  rw [List.getD_eq_getElem?_getD, List.getD_eq_getElem?_getD,
    List.getElem?_set_ne (by omega)]

/-- `Map.set` followed by lookup at the same key. -/
theorem findChild_mapSet_self (l : List (ℕ × MTree)) (k : ℕ) (v : MTree) :
    findChild k (mapSet l k v) = some v := by
  induction l with
  | nil => simp [mapSet, findChild]
  | cons hd tl ih =>
      obtain ⟨k', v'⟩ := hd
      by_cases hk : k' = k
      · subst hk
        simp [mapSet, findChild]
      · simp only [mapSet, if_neg hk, findChild]
        exact ih

/-- C10: a non-terminal node with untried moves expands into a child that
differs from the parent's board at exactly the drawn cell (set to the
parent's side to move), flips the side to move, starts with zero
statistics, is recorded in `children`, and the drawn move leaves
`untried`; the parent's own board and statistics are untouched.  The
hypothesis that `untried` consists of legal (empty) cells holds for every
node the engine builds, since `untried` is initialized from `legalMoves`
and only ever filtered. -/
theorem expand_frame (nd : MTree) (s : ℕ)
    (hterm : nd.terminal = none) (hun : nd.untried.length ≠ 0)
    (hsub : ∀ x ∈ nd.untried, x ∈ legalMoves nd.board) :
    ExpandSpec nd s := by
  cases nd with
  | mk b tm mfp ch un n w wi dr lo te =>
      simp only [MTree.terminal] at hterm
      simp only [MTree.untried] at hun hsub
      simp only [MTree.board] at hsub
      subst hterm
      have hunnil : un ≠ [] := by
        intro hnil
        rw [hnil] at hun
        simp at hun
      have hmem : randChoice un (mulberryNext s).1 ∈ un :=
        randChoice_mem hunnil (mulberryNext_fst_nonneg s) (mulberryNext_fst_lt_one s)
      have hmleg := hsub _ hmem
      obtain ⟨j, hj1, hj2, hj3⟩ := mem_legalMovesAux hmleg
      have hjm : randChoice un (mulberryNext s).1 = j := by omega
      rw [← hjm] at hj2 hj3
      have hee : expandNode (.mk b tm mfp ch un n w wi dr lo none) s =
          (.mk b tm mfp
            (mapSet ch (randChoice un (mulberryNext s).1)
              (makeNode (b.set (randChoice un (mulberryNext s).1) (some tm))
                (otherPlayer tm) (some (randChoice un (mulberryNext s).1))))
            (un.filter (fun x => x != randChoice un (mulberryNext s).1))
            n w wi dr lo none,
           some (randChoice un (mulberryNext s).1), (mulberryNext s).2) := by
        rw [expandNode, if_neg]
        simp [hun]
      refine ⟨randChoice un (mulberryNext s).1,
        makeNode (b.set (randChoice un (mulberryNext s).1) (some tm))
          (otherPlayer tm) (some (randChoice un (mulberryNext s).1)),
        ?_, ?_, hmem, ?_, ?_, ?_, ?_, ?_, ?_, ?_, ?_, ?_, ?_, ?_, ?_, ?_, ?_, ?_,
        ?_, ?_⟩
      · rw [hee]
      · rw [hee]
      · rw [hee]; rfl
      · rw [hee]; rfl
      · rw [hee]; rfl
      · rw [hee]; rfl
      · rw [hee]; rfl
      · rw [hee]; rfl
      · rw [hee]; rfl
      · rw [hee]; rfl
      · rw [hee]; rfl
      · rw [hee]
        simp only [MTree.children]
        exact findChild_mapSet_self ..
      · rfl
      · rfl
      · rfl
      · rfl
      · simp [makeNode, MTree.board, List.length_set]
      · simp only [makeNode, MTree.board, MTree.toMove]
        exact getD_set_self hj2 _
      · intro i hi
        simp only [makeNode, MTree.board]
        exact getD_set_ne hi _

/-- Witness for C10: expanding a fresh node on a concrete midgame board. -/
theorem expand_frame_witness :
    (makeNode [some Player.X, some Player.O, none, none, none, none, none,
      none, none] Player.X none).terminal = none ∧
    (makeNode [some Player.X, some Player.O, none, none, none, none, none,
      none, none] Player.X none).untried.length ≠ 0 ∧
    ExpandSpec (makeNode [some Player.X, some Player.O, none, none, none,
      none, none, none, none] Player.X none) 3 :=
  ⟨by decide, by decide,
   expand_frame _ 3 (by decide) (by decide) (by decide)⟩

/-- Witness for C9 on a concrete terminal board. -/
theorem rollout_bounded_witness :
    checkWinner [some Player.X, some Player.X, some Player.X,
      none, none, none, some Player.O, some Player.O, none] = some Outcome.X ∧
    rolloutWithTrace [some Player.X, some Player.X, some Player.X,
      none, none, none, some Player.O, some Player.O, none] Player.O 7 =
      (Outcome.X, [], [some Player.X, some Player.X, some Player.X,
        none, none, none, some Player.O, some Player.O, none], 7) :=
  ⟨by decide,
   (rollout_bounded [some Player.X, some Player.X, some Player.X,
      none, none, none, some Player.O, some Player.O, none] Player.O 7).2
     Outcome.X (by decide)⟩

/-- C7 counterexample: clicking the already-occupied cell 0 completes
normally and returns the board and tree unchanged.  The handler's
occupied-cell path (`if (terminal || board[i]) return`) produces no error
value at all — its codomain has no error constructor — so the move is
silently ignored, not "rejected with an invalid-move error" as the claim
states. -/
theorem placeMark_counterexample :
    (([some Player.X, none, none, none, none, none, none, none,
        none] : Board).getD 0 none).isSome = true ∧
    checkWinner [some Player.X, none, none, none, none, none, none, none,
      none] = none ∧
    placeMark [some Player.X, none, none, none, none, none, none, none, none]
      (makeNode [some Player.X, none, none, none, none, none, none, none,
        none] Player.O none) 0 =
      ([some Player.X, none, none, none, none, none, none, none, none],
       makeNode [some Player.X, none, none, none, none, none, none, none,
        none] Player.O none) :=
  ⟨rfl, by decide, rfl⟩

/-- C7 (amended): a move aimed at an occupied cell is rejected before any
state change — board and search tree are returned untouched, so it cannot
corrupt a tree — but the rejection is a silent early return (no error
value is raised and the move is not corrected to another cell). -/
theorem placeMark_rejects_occupied (board : Board) (root : MTree) (i : ℕ)
    (h : (board.getD i none).isSome = true) :
    placeMark board root i = (board, root) := by
  simp only [placeMark, h, Bool.or_true, if_true]

/-- Witness for the amended C7 on a concrete occupied cell. -/
theorem placeMark_rejects_occupied_witness :
    ((([none, none, none, none, some Player.O, none, none, none,
        none] : Board).getD 4 none).isSome = true) ∧
    placeMark [none, none, none, none, some Player.O, none, none, none, none]
      (makeNode [none, none, none, none, some Player.O, none, none, none,
        none] Player.X none) 4 =
      ([none, none, none, none, some Player.O, none, none, none, none],
       makeNode [none, none, none, none, some Player.O, none, none, none,
        none] Player.X none) :=
  ⟨rfl, placeMark_rejects_occupied _ _ 4 rfl⟩

/-- The running-best scan either keeps the accumulator (when nothing
exceeds it) or returns the first entry of the maximal visit count among
those exceeding it. -/
theorem bestLoop_spec (l : List (ℕ × MTree)) :
    ∀ (m0 : ℕ) (n0 : ℤ),
      (bestLoop l (some m0) n0 = some m0 ∧ ∀ p ∈ l, ((p.2.N : ℤ) ≤ n0)) ∨
      (∃ l1 mc l2, l = l1 ++ mc :: l2 ∧ bestLoop l (some m0) n0 = some mc.1 ∧
        n0 < (mc.2.N : ℤ) ∧ (∀ p ∈ l1, p.2.N < mc.2.N) ∧
        (∀ p ∈ l2, p.2.N ≤ mc.2.N)) := by
  induction l with
  | nil =>
      intro m0 n0
      left
      exact ⟨rfl, by simp⟩
  | cons hd tl ih =>
      intro m0 n0
      obtain ⟨m1, c1⟩ := hd
      by_cases hlt : n0 < (c1.N : ℤ)
      · rcases ih m1 (c1.N : ℤ) with ⟨heq, hall⟩ |
          ⟨l1, mc, l2, hsplit, heq, hgt, hbefore, hafter⟩
        · right
          refine ⟨[], (m1, c1), tl, by simp, ?_, hlt, by simp, ?_⟩
          · simp only [bestLoop, if_pos hlt]
            exact heq
          · intro p hp
            exact_mod_cast hall p hp
        · right
          refine ⟨(m1, c1) :: l1, mc, l2, by rw [hsplit]; rfl, ?_, ?_, ?_, hafter⟩
          · simp only [bestLoop, if_pos hlt]
            exact heq
          · exact lt_trans hlt hgt
          · intro p hp
            rcases List.mem_cons.1 hp with rfl | hp'
            · exact_mod_cast hgt
            · exact hbefore p hp'
      · rcases ih m0 n0 with ⟨heq, hall⟩ |
          ⟨l1, mc, l2, hsplit, heq, hgt, hbefore, hafter⟩
        · left
          refine ⟨by simp only [bestLoop, if_neg hlt]; exact heq, ?_⟩
          intro p hp
          rcases List.mem_cons.1 hp with rfl | hp'
          · exact not_lt.1 hlt
          · exact hall p hp'
        · right
          refine ⟨(m1, c1) :: l1, mc, l2, by rw [hsplit]; rfl, ?_, hgt, ?_, hafter⟩
          · simp only [bestLoop, if_neg hlt]
            exact heq
          · intro p hp
            rcases List.mem_cons.1 hp with rfl | hp'
            · exact_mod_cast lt_of_le_of_lt (not_lt.1 hlt) hgt
            · exact hbefore p hp'

/-- C5: for a root with at least one child, `bestChildMove` returns the
move of a child of maximal visit count, and among equally-visited children
the first-seen (earliest-inserted) one: every child listed before the
returned one has a strictly smaller visit count.  A childless root yields
no recommendation. -/
theorem bestChildMove_spec (t : MTree) :
    (t.children = [] → bestChildMove t = none) ∧
    (t.children ≠ [] →
      ∃ m ch l1 l2, bestChildMove t = some m ∧
        t.children = l1 ++ (m, ch) :: l2 ∧
        (∀ p ∈ l1, p.2.N < ch.N) ∧
        (∀ p ∈ t.children, p.2.N ≤ ch.N)) := by
  constructor
  · intro h
    simp [bestChildMove, h]
  · intro h
    cases hch : t.children with
    | nil => exact absurd hch h
    | cons hd tl =>
        obtain ⟨m1, c1⟩ := hd
        have hbm : bestChildMove t = bestLoop tl (some m1) (c1.N : ℤ) := by
          rw [bestChildMove, if_neg (by rw [hch]; simp)]
          rw [hch]
          simp only [bestLoop]
          rw [if_pos (by omega)]
        rcases bestLoop_spec tl m1 (c1.N : ℤ) with ⟨heq, hall⟩ |
          ⟨l1, mc, l2, hsplit, heq, hgt, hbefore, hafter⟩
        · refine ⟨m1, c1, [], tl, by rw [hbm, heq], by simp, by simp, ?_⟩
          intro p hp
          rcases List.mem_cons.1 hp with rfl | hp'
          · exact le_refl _
          · exact_mod_cast hall p hp'
        · refine ⟨mc.1, mc.2, (m1, c1) :: l1, l2, by rw [hbm, heq],
            by rw [hsplit]; rfl, ?_, ?_⟩
          · intro p hp
            rcases List.mem_cons.1 hp with rfl | hp'
            · exact_mod_cast hgt
            · exact hbefore p hp'
          · intro p hp
            rw [hsplit] at hp
            rcases List.mem_cons.1 hp with rfl | hp'
            · exact le_of_lt (by exact_mod_cast hgt)
            · rcases List.mem_append.1 hp' with hp1 | hp2
              · exact le_of_lt (hbefore p hp1)
              · rcases List.mem_cons.1 hp2 with rfl | hp3
                · exact le_refl _
                · exact hafter p hp3

/-- Witness for C5: three children with visit counts 2, 5, 5 — the first
of the two tied maxima is recommended. -/
theorem bestChildMove_spec_witness :
    (MTree.mk [] Player.X none
      [(0, MTree.mk [] Player.O none [] [] 2 1 1 0 1 none),
       (1, MTree.mk [] Player.O none [] [] 5 3 3 0 2 none),
       (2, MTree.mk [] Player.O none [] [] 5 2 2 0 3 none)]
      [] 12 6 6 0 6 none).children ≠ [] ∧
    (∃ m ch l1 l2,
      bestChildMove (MTree.mk [] Player.X none
        [(0, MTree.mk [] Player.O none [] [] 2 1 1 0 1 none),
         (1, MTree.mk [] Player.O none [] [] 5 3 3 0 2 none),
         (2, MTree.mk [] Player.O none [] [] 5 2 2 0 3 none)]
        [] 12 6 6 0 6 none) = some m ∧
      (MTree.mk [] Player.X none
        [(0, MTree.mk [] Player.O none [] [] 2 1 1 0 1 none),
         (1, MTree.mk [] Player.O none [] [] 5 3 3 0 2 none),
         (2, MTree.mk [] Player.O none [] [] 5 2 2 0 3 none)]
        [] 12 6 6 0 6 none).children = l1 ++ (m, ch) :: l2 ∧
      (∀ p ∈ l1, p.2.N < ch.N) ∧
      (∀ p ∈ (MTree.mk [] Player.X none
        [(0, MTree.mk [] Player.O none [] [] 2 1 1 0 1 none),
         (1, MTree.mk [] Player.O none [] [] 5 3 3 0 2 none),
         (2, MTree.mk [] Player.O none [] [] 5 2 2 0 3 none)]
        [] 12 6 6 0 6 none).children, p.2.N ≤ ch.N)) :=
  ⟨List.cons_ne_nil _ _,
   (bestChildMove_spec _).2 (List.cons_ne_nil _ _)⟩

/-- C8 counterexample: two children whose UCT scores differ by
`2⁻⁵⁰ < 1e-12` (an epsilon-tie in the claim's sense, obtained with
`C = 0`, one child at 0/1 and one at `1/2⁵⁰`).  Because the source checks
`val > bestVal` *before* the epsilon test, the second child wins outright:
the same child is selected whether the pending draw is below `1/2`
(state 0) or above it (state 1), and no draw is consumed at all (the
returned random state equals the input state).  The choice is therefore
not an unbiased coin flip with probability 1/2 each. -/
theorem selection_tie_counterexample :
    uctValue 3 1 0 0 < uctValue 3 1125899906842624 1 0 ∧
    |uctValue 3 1125899906842624 1 0 - uctValue 3 1 0 0| < 1e-12 ∧
    (mulberryNext 0).1 < 1 / 2 ∧
    ¬ (mulberryNext 1).1 < 1 / 2 ∧
    pickBestChild 3 0
      [(0, MTree.mk [] Player.X none [] [] 1 0 0 0 0 none),
       (1, MTree.mk [] Player.X none [] [] 1125899906842624 1 0 0 0 none)] 0 =
      (some (1, MTree.mk [] Player.X none [] [] 1125899906842624 1 0 0 0 none), 0) ∧
    pickBestChild 3 0
      [(0, MTree.mk [] Player.X none [] [] 1 0 0 0 0 none),
       (1, MTree.mk [] Player.X none [] [] 1125899906842624 1 0 0 0 none)] 1 =
      (some (1, MTree.mk [] Player.X none [] [] 1125899906842624 1 0 0 0 none), 1) := by
  have hv1 : uctValue 3 1 0 0 = 0 := by
    norm_num [uctValue]
  have hv2 : uctValue 3 1125899906842624 1 0 = 1 / 1125899906842624 := by
    norm_num [uctValue]
  have hd0 : mulberryNext 0 = (((1144304738 : ℕ) : ℚ) / 4294967296, 1831565813) := rfl
  have hd1 : mulberryNext 1 = (((2693262067 : ℕ) : ℚ) / 4294967296, 1831565814) := rfl
  have hpb : ∀ s : ℕ, pickBestChild 3 0
      [(0, MTree.mk [] Player.X none [] [] 1 0 0 0 0 none),
       (1, MTree.mk [] Player.X none [] [] 1125899906842624 1 0 0 0 none)] s =
      (some (1, MTree.mk [] Player.X none [] [] 1125899906842624 1 0 0 0 none), s) := by
    intro s
    simp only [pickBestChild, pickLoop, MTree.N, MTree.W]
    rw [if_pos (by rw [hv1, hv2]; norm_num)]
  refine ⟨by rw [hv1, hv2]; norm_num,
    by rw [hv1, hv2, sub_zero,
         abs_of_pos (by norm_num : (0 : ℝ) < 1 / 1125899906842624)]
       norm_num,
    by rw [hd0]; norm_num, by rw [hd1]; norm_num, hpb 0, hpb 1⟩

/-- C8 (amended): in the selection scan, when a later child's UCT score
does not exceed the running best but agrees with it within `1e-12`, the
tie is broken by a draw from the deterministic random source — the later
child is taken exactly when the draw is below `1/2`, independent of
insertion order; a later child whose score strictly exceeds the best is
taken outright without consuming a draw. -/
theorem selection_tie_coin (pn : ℕ) (Cc : ℝ) (m1 m2 : ℕ) (c1 c2 : MTree) (s : ℕ)
    (hle : ¬ uctValue pn c1.N c1.W Cc < uctValue pn c2.N c2.W Cc)
    (heps : |uctValue pn c2.N c2.W Cc - uctValue pn c1.N c1.W Cc| < 1e-12) :
    pickBestChild pn Cc [(m1, c1), (m2, c2)] s =
      (if (mulberryNext s).1 < 1 / 2 then (some (m2, c2), (mulberryNext s).2)
       else (some (m1, c1), (mulberryNext s).2)) := by
  simp only [pickBestChild, pickLoop]
  rw [if_neg hle, if_pos heps]

/-- Witness for the amended C8: two children with identical statistics
(an exact tie) at a concrete random state. -/
theorem selection_tie_coin_witness :
    pickBestChild 7 1
      [(0, MTree.mk [] Player.X none [] [] 1 0 1 0 0 none),
       (1, MTree.mk [] Player.X none [] [] 1 0 1 0 0 none)] 5 =
      (if (mulberryNext 5).1 < 1 / 2
       then (some (1, MTree.mk [] Player.X none [] [] 1 0 1 0 0 none),
         (mulberryNext 5).2)
       else (some (0, MTree.mk [] Player.X none [] [] 1 0 1 0 0 none),
         (mulberryNext 5).2)) :=
  selection_tie_coin 7 1 0 1 _ _ 5 (lt_irrefl _)
    (by rw [sub_self, abs_zero]; norm_num)

/-- `bumpStats` leaves the child list unchanged. -/
theorem bumpStats_children (o : Outcome) (rp : Player) (t : MTree) :
    (bumpStats o rp t).children = t.children := by
  cases t
  simp only [bumpStats]
  split_ifs <;> rfl

/-- A player's winning outcome is never the draw outcome. -/
theorem playerOutcome_ne_D (rp : Player) : playerOutcome rp ≠ Outcome.D := by
  cases rp <;> simp [playerOutcome]

/-- Field accounting of one `backprop` node update. -/
theorem bumpStats_spec (o : Outcome) (rp : Player) (t : MTree) :
    (bumpStats o rp t).N = t.N + 1 ∧
    (bumpStats o rp t).W = t.W + rewardFrom o rp ∧
    (bumpStats o rp t).wins =
      t.wins + (if o ≠ .D ∧ o = playerOutcome rp then 1 else 0) ∧
    (bumpStats o rp t).draws = t.draws + (if o = .D then 1 else 0) ∧
    (bumpStats o rp t).losses =
      t.losses + (if o ≠ .D ∧ o ≠ playerOutcome rp then 1 else 0) := by
  cases t with
  | mk b tm mfp ch un n w wi dr lo te =>
      by_cases hD : o = .D
      · subst hD
        simp [bumpStats, MTree.N, MTree.W, MTree.wins, MTree.draws, MTree.losses]
      · by_cases hW : o = playerOutcome rp
        · simp [bumpStats, hD, hW, playerOutcome_ne_D, MTree.N, MTree.W,
            MTree.wins, MTree.draws, MTree.losses]
        · simp [bumpStats, hD, hW, playerOutcome_ne_D, MTree.N, MTree.W,
            MTree.wins, MTree.draws, MTree.losses]

/-- The reward cases written from the claim's side: `1` for a root-player
win, `1/2` for a draw, `0` for a loss; agrees with the source's order of
tests because `playerOutcome` is never the draw outcome. -/
theorem rewardFrom_eq (o : Outcome) (rp : Player) :
    rewardFrom o rp =
      (if o = playerOutcome rp then (1 : ℚ) else if o = .D then 1 / 2 else 0) := by
  cases o <;> cases rp <;> simp [rewardFrom, playerOutcome]

/-- `mapChildAt` rewrites only the child list. -/
theorem mapChildAt_children (m : ℕ) (f : MTree → MTree) (t : MTree) :
    (mapChildAt m f t).children =
      t.children.map fun kc => if kc.1 = m then (kc.1, f kc.2) else kc := by
  cases t
  rfl

/-- `mapChildAt` keeps every statistics field of the node itself. -/
theorem mapChildAt_stats (m : ℕ) (f : MTree → MTree) (t : MTree) :
    (mapChildAt m f t).N = t.N ∧ (mapChildAt m f t).W = t.W ∧
    (mapChildAt m f t).wins = t.wins ∧ (mapChildAt m f t).draws = t.draws ∧
    (mapChildAt m f t).losses = t.losses := by
  cases t
  exact ⟨rfl, rfl, rfl, rfl, rfl⟩

/-- Lookup in a child list rewritten at key `m`. -/
theorem findChild_map_ite (ch : List (ℕ × MTree)) (m k : ℕ) (f : MTree → MTree) :
    findChild k (ch.map fun kc => if kc.1 = m then (kc.1, f kc.2) else kc) =
      if k = m then (findChild m ch).map f else findChild k ch := by
  induction ch with
  | nil => simp [findChild]
  | cons hd tl ih =>
      obtain ⟨k', c⟩ := hd
      simp only [List.map_cons]
      by_cases hk'm : k' = m
      · subst hk'm
        rw [if_pos rfl]
        by_cases hk'k : k' = k
        · subst hk'k
          rw [if_pos rfl]
          simp [findChild]
        · rw [if_neg (fun h => hk'k h.symm)]
          simp only [findChild, if_neg hk'k]
          rw [ih, if_neg (fun h => hk'k h.symm)]
      · rw [if_neg hk'm]
        by_cases hk'k : k' = k
        · subst hk'k
          rw [if_neg hk'm]
          simp [findChild]
        · simp only [findChild, if_neg hk'k]
          rw [ih, if_neg hk'm]

/-- C2: backpropagation updates exactly the nodes the source's
parent-pointer walk visits — the nodes on the path from the root down to
the simulated node, both inclusive (the prefixes `q` of the access path
`p`).  Each such node gains one visit, adds to `totalReward` the reward of
the outcome from the root player's perspective (`1` win, `1/2` draw, `0`
loss, the same value at every node regardless of that node's side to
move), and bumps exactly the matching one of `wins`/`draws`/`losses`;
every node off the path is untouched. -/
theorem backprop_spec (t : MTree) (p : List ℕ) (o : Outcome) (rp : Player) :
    ∀ q : List ℕ,
      ((∃ r, q ++ r = p) → ∀ u, nodeAt? q t = some u →
        ∃ u', nodeAt? q (backpropPath o rp p t) = some u' ∧
          u'.N = u.N + 1 ∧
          u'.W = u.W + (if o = playerOutcome rp then (1 : ℚ)
            else if o = .D then 1 / 2 else 0) ∧
          u'.wins = u.wins + (if o ≠ .D ∧ o = playerOutcome rp then 1 else 0) ∧
          u'.draws = u.draws + (if o = .D then 1 else 0) ∧
          u'.losses =
            u.losses + (if o ≠ .D ∧ o ≠ playerOutcome rp then 1 else 0)) ∧
      ((∀ r, q ++ r ≠ p) → nodeAt? q (backpropPath o rp p t) = nodeAt? q t) := by
  induction p generalizing t with
  | nil =>
      intro q
      constructor
      · rintro ⟨r, hqr⟩ u hu
        have hq : q = [] := by
          cases q with
          | nil => rfl
          | cons a as => simp at hqr
        subst hq
        simp only [nodeAt?] at hu
        obtain rfl := Option.some.inj hu
        refine ⟨bumpStats o rp t, by simp [backpropPath, nodeAt?],
          (bumpStats_spec o rp t).1, ?_, (bumpStats_spec o rp t).2.2.1,
          (bumpStats_spec o rp t).2.2.2.1, (bumpStats_spec o rp t).2.2.2.2⟩
        rw [(bumpStats_spec o rp t).2.1, rewardFrom_eq]
      · intro hno
        cases q with
        | nil => exact absurd rfl (hno [])
        | cons k q' =>
            simp only [backpropPath, nodeAt?, bumpStats_children]
  | cons m p' ih =>
      intro q
      constructor
      · rintro ⟨r, hqr⟩ u hu
        cases q with
        | nil =>
            simp only [nodeAt?] at hu
            obtain rfl := Option.some.inj hu
            refine ⟨backpropPath o rp (m :: p') t, by simp [nodeAt?],
              ?_, ?_, ?_, ?_, ?_⟩
            · simp only [backpropPath]
              rw [(bumpStats_spec o rp _).1,
                (mapChildAt_stats m (backpropPath o rp p') t).1]
            · simp only [backpropPath]
              rw [(bumpStats_spec o rp _).2.1,
                (mapChildAt_stats m (backpropPath o rp p') t).2.1, rewardFrom_eq]
            · simp only [backpropPath]
              rw [(bumpStats_spec o rp _).2.2.1,
                (mapChildAt_stats m (backpropPath o rp p') t).2.2.1]
            · simp only [backpropPath]
              rw [(bumpStats_spec o rp _).2.2.2.1,
                (mapChildAt_stats m (backpropPath o rp p') t).2.2.2.1]
            · simp only [backpropPath]
              rw [(bumpStats_spec o rp _).2.2.2.2,
                (mapChildAt_stats m (backpropPath o rp p') t).2.2.2.2]
        | cons k q' =>
            rw [List.cons_append] at hqr
            injection hqr with hk1 hk2
            subst hk1
            simp only [nodeAt?] at hu ⊢
            simp only [backpropPath, bumpStats_children, mapChildAt_children,
              findChild_map_ite, if_pos rfl]
            cases hfc : findChild k t.children with
            | none =>
                rw [hfc] at hu
                simp at hu
            | some c =>
                rw [hfc] at hu
                simp only [if_true, Option.map_some']
                exact (ih c q').1 ⟨r, hk2⟩ u hu
      · intro hno
        cases q with
        | nil => exact absurd rfl (hno (m :: p'))
        | cons k q' =>
            simp only [nodeAt?, backpropPath, bumpStats_children,
              mapChildAt_children, findChild_map_ite]
            by_cases hk : k = m
            · subst hk
              cases hfc : findChild k t.children with
              | none => simp
              | some c =>
                  simp only [if_pos rfl, if_true, Option.map_some']
                  have hno' : ∀ r, q' ++ r ≠ p' := by
                    intro r hr
                    exact hno r (by rw [List.cons_append, hr])
                  exact (ih c q').2 hno'
            · rw [if_neg hk]

/-- Witness for C2 on a two-node tree: the child on the path `[4]` and the
off-path address `[9]`. -/
theorem backprop_spec_witness :
    (∃ u', nodeAt? [4]
        (backpropPath Outcome.X Player.X [4]
          (MTree.mk [] Player.X none
            [(4, MTree.mk [] Player.O (some 4) [] [2] 1 (1 / 2) 0 1 0 none)]
            [0] 1 (1 / 2) 0 1 0 none)) = some u' ∧
      u'.N = (MTree.mk [] Player.O (some 4) [] [2] 1 (1 / 2) 0 1 0
        none : MTree).N + 1 ∧
      u'.W = (MTree.mk [] Player.O (some 4) [] [2] 1 (1 / 2) 0 1 0
        none : MTree).W + (if Outcome.X = playerOutcome Player.X then (1 : ℚ)
          else if Outcome.X = .D then 1 / 2 else 0) ∧
      u'.wins = (MTree.mk [] Player.O (some 4) [] [2] 1 (1 / 2) 0 1 0
        none : MTree).wins +
          (if Outcome.X ≠ .D ∧ Outcome.X = playerOutcome Player.X then 1 else 0) ∧
      u'.draws = (MTree.mk [] Player.O (some 4) [] [2] 1 (1 / 2) 0 1 0
        none : MTree).draws + (if Outcome.X = .D then 1 else 0) ∧
      u'.losses = (MTree.mk [] Player.O (some 4) [] [2] 1 (1 / 2) 0 1 0
        none : MTree).losses +
          (if Outcome.X ≠ .D ∧ Outcome.X ≠ playerOutcome Player.X then 1
           else 0)) ∧
    nodeAt? [9]
        (backpropPath Outcome.X Player.X [4]
          (MTree.mk [] Player.X none
            [(4, MTree.mk [] Player.O (some 4) [] [2] 1 (1 / 2) 0 1 0 none)]
            [0] 1 (1 / 2) 0 1 0 none)) =
      nodeAt? [9]
        (MTree.mk [] Player.X none
          [(4, MTree.mk [] Player.O (some 4) [] [2] 1 (1 / 2) 0 1 0 none)]
          [0] 1 (1 / 2) 0 1 0 none) :=
  ⟨(backprop_spec
      (MTree.mk [] Player.X none
        [(4, MTree.mk [] Player.O (some 4) [] [2] 1 (1 / 2) 0 1 0 none)]
        [0] 1 (1 / 2) 0 1 0 none) [4] Outcome.X Player.X [4]).1
      ⟨[], rfl⟩ _ rfl,
   (backprop_spec
      (MTree.mk [] Player.X none
        [(4, MTree.mk [] Player.O (some 4) [] [2] 1 (1 / 2) 0 1 0 none)]
        [0] 1 (1 / 2) 0 1 0 none) [4] Outcome.X Player.X [9]).2
      (by intro r hr; simp at hr)⟩

/-- With the cancellation flag clear, the visible selection loop computes
exactly `select` (and in particular consumes the same tie-break draws). -/
theorem selectVizLoop_false (t : MTree) (Cc : ℝ) (s : ℕ) :
    selectVizLoop t Cc false s = some (select t Cc s) := by
  induction t, Cc, s using select.induct with
  | case1 t Cc s h m child s' hp ih =>
      rw [selectVizLoop, select]
      rw [if_pos h, if_pos h]
      rw [if_neg Bool.false_ne_true]
      rw [hp]
      dsimp only
      rw [ih]
      rfl
  | case2 t Cc s h s' hp =>
      rw [selectVizLoop, select]
      rw [if_pos h, if_pos h]
      rw [if_neg Bool.false_ne_true]
      rw [hp]
  | case3 t Cc s h =>
      rw [selectVizLoop, select]
      rw [if_neg h, if_neg h]

/-- An uncancelled visible iteration performs exactly the mutation of a
fast iteration, finishing in the same random state and reporting
success. -/
theorem oneIterationViz_false (t : MTree) (Cc : ℝ) (bd : Board) (s : ℕ) :
    oneIterationViz t Cc bd false s =
      ((oneIterationFast t Cc bd s).1, true, (oneIterationFast t Cc bd s).2) := by
  rw [oneIterationViz, selectVizLoop_false]
  simp only [oneIterationFast, Bool.false_eq_true, if_false, false_and,
    ite_false]

/-- With the cancellation flag set at run start, a visible iteration
aborts before any mutation: the tree and random state are unchanged and
the iteration reports failure. -/
theorem oneIterationViz_true (t : MTree) (Cc : ℝ) (bd : Board) (s : ℕ) :
    oneIterationViz t Cc bd true s = (t, false, s) := by
  have hsel : selectVizLoop t Cc true s =
      if t.terminal = none ∧ t.untried.length = 0 ∧ 0 < t.children.length
      then none else some ([], s) := by
    by_cases h : t.terminal = none ∧ t.untried.length = 0 ∧ 0 < t.children.length
    · rw [selectVizLoop, if_pos h, if_pos h, if_pos rfl]
    · rw [selectVizLoop, if_neg h, if_neg h]
  rw [oneIterationViz, hsel]
  by_cases h : t.terminal = none ∧ t.untried.length = 0 ∧ 0 < t.children.length
  · rw [if_pos h]
  · rw [if_neg h]
    simp

/-- C4: an uncancelled visible iteration and a fast iteration are the same
tree transformation and leave the generator in the same state; hence any
uncancelled run schedule mixing visible and fast iterations — one visible
iteration ("Step"), all-fast ("Run"), or the periodic mix of the animated
stepper — produces, from the same starting tree and reseeded random state,
exactly the tree of the all-fast run of the same length. -/
theorem viz_fast_equiv (Cc : ℝ) (bd : Board) :
    (∀ t s, oneIterationViz t Cc bd false s =
      ((oneIterationFast t Cc bd s).1, true, (oneIterationFast t Cc bd s).2)) ∧
    (∀ sched : List Bool, ∀ t s,
      runSchedule sched t Cc bd s = runFast sched.length t Cc bd s) := by
  constructor
  · exact fun t s => oneIterationViz_false t Cc bd s
  · intro sched
    induction sched with
    | nil => intro t s; rfl
    | cons v rest ih =>
        intro t s
        cases v with
        | false =>
            simp only [runSchedule, List.length_cons, runFast,
              Bool.false_eq_true, if_false]
            exact ih _ _
        | true =>
            simp only [runSchedule, List.length_cons, runFast, if_true]
            rw [oneIterationViz_false]
            exact ih _ _

/-!
## Preservation of the statistics invariant (C3)
-/

/-- Occurrence is transitive. -/
theorem occurs_trans {u v t : MTree} (h1 : Occurs u v) (h2 : Occurs v t) :
    Occurs u t := by
  induction h2 with
  | refl => exact h1
  | child hc _ ih => exact Occurs.child hc ih

/-- A subtree of an invariant-satisfying tree satisfies the invariant. -/
theorem AllOK_occurs {t v : MTree} (h : AllOK t) (hv : Occurs v t) : AllOK v :=
  fun u hu => h u (occurs_trans hu hv)

/-- A fresh node satisfies the invariant (all statistics are zero and it
has no children). -/
theorem AllOK_makeNode (b : Board) (tm : Player) (mfp : Option ℕ) :
    AllOK (makeNode b tm mfp) := by
  intro u hu
  cases hu with
  | refl => exact ⟨rfl, le_refl 0, by norm_num [makeNode, MTree.W, MTree.N]⟩
  | child hc h => simp [makeNode, MTree.children] at hc

/-- The reward is never negative. -/
theorem rewardFrom_nonneg (o : Outcome) (rp : Player) : 0 ≤ rewardFrom o rp := by
  unfold rewardFrom
  split_ifs <;> norm_num

/-- The reward never exceeds one. -/
theorem rewardFrom_le_one (o : Outcome) (rp : Player) : rewardFrom o rp ≤ 1 := by
  unfold rewardFrom
  split_ifs <;> norm_num

/-- One backpropagation update keeps a node's statistics invariant. -/
theorem StatsOK_bumpStats (o : Outcome) (rp : Player) {t : MTree}
    (h : StatsOK t) : StatsOK (bumpStats o rp t) := by
  obtain ⟨hsum, hw0, hwN⟩ := h
  obtain ⟨hN, hW, hwi, hdr, hlo⟩ := bumpStats_spec o rp t
  refine ⟨?_, ?_, ?_⟩
  · rw [hwi, hdr, hlo, hN]
    by_cases hD : o = .D
    · rw [if_neg (by simp [hD]), if_pos hD, if_neg (by simp [hD])]
      omega
    · by_cases hX : o = playerOutcome rp
      · rw [if_pos ⟨hD, hX⟩, if_neg hD, if_neg (by simp [hX])]
        omega
      · rw [if_neg (by simp [hX]), if_neg hD, if_pos ⟨hD, hX⟩]
        omega
  · rw [hW]
    have := rewardFrom_nonneg o rp
    linarith
  · rw [hW, hN]
    have := rewardFrom_le_one o rp
    push_cast
    linarith

/-- Bumping the root's statistics preserves the invariant tree-wide. -/
theorem AllOK_bumpStats (o : Outcome) (rp : Player) {t : MTree}
    (h : AllOK t) : AllOK (bumpStats o rp t) := by
  intro u hu
  cases hu with
  | refl => exact StatsOK_bumpStats o rp (h t (Occurs.refl t))
  | child hc hoc =>
      rw [bumpStats_children] at hc
      exact h u (Occurs.child hc hoc)

/-- Rewriting one child with an invariant-preserving function preserves
the invariant. -/
theorem AllOK_mapChildAt (m : ℕ) (f : MTree → MTree) {t : MTree}
    (h : AllOK t) (hf : ∀ c, AllOK c → AllOK (f c)) :
    AllOK (mapChildAt m f t) := by
  intro u hu
  cases hu with
  | refl =>
      have hs := h t (Occurs.refl t)
      obtain ⟨h1, h2, h3, h4, h5⟩ := mapChildAt_stats m f t
      exact ⟨by rw [h3, h4, h5, h1]; exact hs.1, by rw [h2]; exact hs.2.1,
        by rw [h2, h1]; exact hs.2.2⟩
  | child hc hoc =>
      rw [mapChildAt_children] at hc
      obtain ⟨⟨k, c⟩, hkc, heq⟩ := List.mem_map.1 hc
      by_cases hkm : k = m
      · rw [if_pos hkm] at heq
        obtain ⟨-, rfl⟩ := Prod.mk.injEq .. ▸ heq
        exact hf c (AllOK_occurs h (Occurs.child hkc (Occurs.refl c))) u hoc
      · rw [if_neg hkm] at heq
        obtain ⟨-, rfl⟩ := Prod.mk.injEq .. ▸ heq
        exact h u (Occurs.child hkc hoc)

/-- Backpropagation along any path preserves the invariant. -/
theorem AllOK_backpropPath (o : Outcome) (rp : Player) :
    ∀ (p : List ℕ) (t : MTree), AllOK t → AllOK (backpropPath o rp p t) := by
  intro p
  induction p with
  | nil => exact fun t h => AllOK_bumpStats o rp h
  | cons m p' ih =>
      intro t h
      exact AllOK_bumpStats o rp (AllOK_mapChildAt m _ h fun c hc => ih c hc)

/-- Members of `mapSet l k v` are old members or the new binding. -/
theorem mem_mapSet {l : List (ℕ × MTree)} {k : ℕ} {v : MTree} :
    ∀ {x}, x ∈ mapSet l k v → x ∈ l ∨ x = (k, v) := by
  induction l with
  | nil =>
      intro x hx
      simp [mapSet] at hx
      exact .inr hx
  | cons hd tl ih =>
      obtain ⟨k', v'⟩ := hd
      intro x hx
      by_cases hk : k' = k
      · rw [mapSet, if_pos hk] at hx
        rcases List.mem_cons.1 hx with rfl | hx'
        · exact .inr rfl
        · exact .inl (List.mem_cons_of_mem _ hx')
      · rw [mapSet, if_neg hk] at hx
        rcases List.mem_cons.1 hx with rfl | hx'
        · exact .inl (List.mem_cons_self _ _)
        · rcases ih hx' with h1 | h2
          · exact .inl (List.mem_cons_of_mem _ h1)
          · exact .inr h2

/-- Expansion preserves the invariant: the parent keeps its statistics and
the new child is fresh. -/
theorem AllOK_expandNode (s : ℕ) {nd : MTree} (h : AllOK nd) :
    AllOK (expandNode nd s).1 := by
  cases nd with
  | mk b tm mfp ch un n w wi dr lo te =>
      rw [expandNode]
      by_cases hco : te ≠ none ∨ un.length = 0
      · rw [if_pos hco]
        exact h
      · rw [if_neg hco]
        dsimp only
        intro u hu
        cases hu with
        | refl =>
            have hs := h (MTree.mk b tm mfp ch un n w wi dr lo te) (Occurs.refl _)
            exact hs
        | child hc hoc =>
            simp only [MTree.children] at hc
            rcases mem_mapSet hc with hold | hnew
            · exact h u (Occurs.child
                (show _ ∈ (MTree.mk b tm mfp ch un n w wi dr lo te).children
                  by simpa [MTree.children] using hold) hoc)
            · obtain ⟨-, rfl⟩ := Prod.mk.injEq .. ▸ hnew
              exact AllOK_makeNode _ _ _ u hoc

/-- Replacing the node at a path by an invariant-satisfying tree preserves
the invariant. -/
theorem AllOK_replaceAt :
    ∀ (p : List ℕ) {nd t : MTree}, AllOK t → AllOK nd →
      AllOK (replaceAt p nd t) := by
  intro p
  induction p with
  | nil => exact fun _ hnd => hnd
  | cons m p' ih =>
      intro nd t h hnd
      exact AllOK_mapChildAt m _ h fun c hc => ih hc hnd

/-- `findChild` returns a member of the child list. -/
theorem findChild_mem {m : ℕ} :
    ∀ {l : List (ℕ × MTree)} {c : MTree}, findChild m l = some c → (m, c) ∈ l := by
  intro l
  induction l with
  | nil => intro c hc; simp [findChild] at hc
  | cons hd tl ih =>
      obtain ⟨k', c'⟩ := hd
      intro c hc
      rw [findChild] at hc
      by_cases hk : k' = m
      · rw [if_pos hk] at hc
        obtain rfl := Option.some.inj hc
        subst hk
        exact List.mem_cons_self _ _
      · rw [if_neg hk] at hc
        exact List.mem_cons_of_mem _ (ih hc)

/-- The node addressed by any path occurs in the tree. -/
theorem occurs_nodeAtD : ∀ (p : List ℕ) (t : MTree), Occurs (nodeAtD p t) t := by
  intro p
  induction p with
  | nil => exact fun t => Occurs.refl t
  | cons m p' ih =>
      intro t
      rw [nodeAtD]
      cases hfc : findChild m t.children with
      | none => exact Occurs.refl t
      | some c => exact occurs_trans (ih c) (Occurs.child (findChild_mem hfc) (Occurs.refl c))

/-- One fast iteration preserves the statistics invariant. -/
theorem AllOK_oneIterationFast (t : MTree) (Cc : ℝ) (bd : Board) (s : ℕ)
    (h : AllOK t) : AllOK (oneIterationFast t Cc bd s).1 := by
  simp only [oneIterationFast]
  by_cases hc : (nodeAtD (select t Cc s).1 t).terminal = none ∧
      0 < (nodeAtD (select t Cc s).1 t).untried.length
  · rw [if_pos hc]
    dsimp only
    exact AllOK_backpropPath _ _ _ _
      (AllOK_replaceAt _ h (AllOK_expandNode _ (AllOK_occurs h (occurs_nodeAtD _ _))))
  · rw [if_neg hc]
    dsimp only
    exact AllOK_backpropPath _ _ _ _ h

/-- Any iteration — fast, or visible with either value of the cancellation
flag — preserves the statistics invariant. -/
theorem AllOK_reaches {Cc : ℝ} {bd : Board} :
    ∀ {x y : MTree × ℕ}, Reaches Cc bd x y → AllOK x.1 → AllOK y.1 := by
  intro x y h
  induction h with
  | refl => exact id
  | fast h ih =>
      intro hx
      exact AllOK_oneIterationFast _ _ _ _ (ih hx)
  | viz cancelled h ih =>
      intro hx
      cases cancelled with
      | false =>
          rw [oneIterationViz_false]
          exact AllOK_oneIterationFast _ _ _ _ (ih hx)
      | true =>
          rw [oneIterationViz_true]
          exact ih hx

/-- C3: in every tree grown from a freshly created root by any finite
sequence of iterations (fast or visible), every node satisfies
`wins + draws + losses = visitCount` and `0 ≤ totalReward ≤ visitCount`
after every iteration. -/
theorem tree_invariants (Cc : ℝ) (bd : Board) (b : Board) (tm : Player)
    (mfp : Option ℕ) (seed : ℕ) (t : MTree) (s : ℕ)
    (hreach : Reaches Cc bd (makeNode b tm mfp, seed) (t, s)) :
    ∀ u, Occurs u t →
      u.wins + u.draws + u.losses = u.N ∧ 0 ≤ u.W ∧ u.W ≤ (u.N : ℚ) := by
  have hall : AllOK t := AllOK_reaches hreach (AllOK_makeNode b tm mfp)
  exact fun u hu => hall u hu

/-- Witness for C3 at the freshly created root (zero iterations). -/
theorem tree_invariants_witness :
    (makeNode [some Player.X, some Player.O, none, none, some Player.X, none,
      some Player.O, none, none] Player.X none).wins +
      (makeNode [some Player.X, some Player.O, none, none, some Player.X, none,
        some Player.O, none, none] Player.X none).draws +
      (makeNode [some Player.X, some Player.O, none, none, some Player.X, none,
        some Player.O, none, none] Player.X none).losses =
      (makeNode [some Player.X, some Player.O, none, none, some Player.X, none,
        some Player.O, none, none] Player.X none).N ∧
    0 ≤ (makeNode [some Player.X, some Player.O, none, none, some Player.X,
      none, some Player.O, none, none] Player.X none).W ∧
    (makeNode [some Player.X, some Player.O, none, none, some Player.X, none,
      some Player.O, none, none] Player.X none).W ≤
      ((makeNode [some Player.X, some Player.O, none, none, some Player.X,
        none, some Player.O, none, none] Player.X none).N : ℚ) :=
  tree_invariants 1
    [some Player.X, some Player.O, none, none, some Player.X, none,
      some Player.O, none, none]
    [some Player.X, some Player.O, none, none, some Player.X, none,
      some Player.O, none, none] Player.X none 7 _ 7 (Reaches.refl _) _
    (Occurs.refl _)

end MCTS
